import Mathlib

/-!
# Verification of the nerdify font-metadata tools

Shallow embedding of the pure decision logic of `createcollection.py`,
`nameadjust.py`, `weightadjust.py` and `common/fontweights.py`, together
with theorems settling the frozen claims about the natural-language
specification.

Strings are modelled with Lean `String`/`List Char`; Python dictionaries
that are only iterated or looked up are modelled as association lists in
insertion order; file/TTF I/O (the metadata and axis-range providers) is
abstracted into explicit record fields or parameters, exactly as the spec
describes them as injectable interfaces.
-/

namespace Nerdify

/-! ## Shared character/string helpers (Python string primitives) -/

/-- Python `str.lower()` on a string, modelled character-wise (ASCII). -/
def pyLower (s : String) : String := ⟨s.data.map Char.toLower⟩

/-- Maximal-run splitter: `fieldsGo p cur cs` accumulates the current token
(reversed) in `cur` and splits `cs` at characters satisfying `p`, dropping
empty pieces — this is `re.split` on a run of separators followed by
filtering out empty strings, as Python's `str.split()` also behaves. -/
def fieldsGo (p : Char → Bool) (cur : List Char) : List Char → List (List Char)
  | [] => if cur.isEmpty then [] else [cur.reverse]
  | c :: cs =>
    if p c then
      if cur.isEmpty then fieldsGo p [] cs
      else cur.reverse :: fieldsGo p [] cs
    else fieldsGo p (c :: cur) cs

/-- Split a character list into maximal runs of non-separator characters. -/
def fields (p : Char → Bool) (cs : List Char) : List (List Char) :=
  fieldsGo p [] cs

/-- Join character-list tokens with single spaces (`" ".join(...)`). -/
def joinSpace : List (List Char) → List Char
  | [] => []
  | [t] => t
  | t :: ts => t ++ ' ' :: joinSpace ts

/-- Python `" ".join(s.lower().split())`: lowercase, split on whitespace
runs, rejoin with single spaces. -/
def pyNormWS (s : String) : String :=
  ⟨joinSpace (fields Char.isWhitespace (s.data.map Char.toLower))⟩

/-- Substring containment on character lists (Python `pat in s`). -/
def containsSub (p : List Char) : List Char → Bool
  | [] => p.isEmpty
  | c :: cs => p.isPrefixOf (c :: cs) || containsSub p cs

/-- Substring containment on strings (Python `pat in s`). -/
def containsStr (pat s : String) : Bool := containsSub pat.data s.data

/-- Python `str.strip()` (whitespace from both ends) on a character list. -/
def pyStrip (cs : List Char) : List Char :=
  ((cs.dropWhile Char.isWhitespace).reverse.dropWhile Char.isWhitespace).reverse

/-! ## `createcollection.py` -/

namespace Createcollection

/-- The `WEIGHT_MAP` dict of `createcollection.py`, as an association list
in the source's insertion order (Python dicts iterate in insertion order). -/
def WEIGHT_MAP : List (String × Nat) :=
  [("thin", 100), ("hairline", 100),
   ("extra light", 200), ("extralight", 200),
   ("ultra light", 200), ("ultralight", 200),
   ("light", 300),
   ("regular", 400), ("book", 400), ("roman", 400),
   ("medium", 500),
   ("semi bold", 600), ("semibold", 600), ("demi bold", 600), ("demibold", 600),
   ("bold", 700),
   ("extra bold", 800), ("extrabold", 800), ("ultra bold", 800), ("ultrabold", 800),
   ("black", 900), ("heavy", 900)]

/-- The `ITALIC_TOKENS` set of `createcollection.py`. -/
def ITALIC_TOKENS : List String := ["italic", "oblique"]

/-- The state-machine for the version-token regular expression
`^(?:v)?\d+(?:[._]\d+)*$` after the optional leading `v` has been handled:
`seen` records whether the current digit group already has a digit. -/
def verRun : List Char → Bool → Bool
  | [], seen => seen
  | c :: cs, seen =>
    if c.isDigit then verRun cs true
    else if (c = '.' || c = '_') && seen then verRun cs false
    else false

/-- `_VERSION_TOKEN_RE.match(t)`: token matches
`^(?:v)?\d+(?:[._]\d+)*$` (e.g. `0902`, `v1.2.3`). -/
def isVersionTok (t : String) : Bool :=
  match t.data with
  | 'v' :: rest => verRun rest false
  | cs => verRun cs false

/-- `tokenize_stem`: split the stem on runs of `-`/`_`, strip whitespace,
lowercase, and drop empty tokens. -/
def tokenize_stem (stem : String) : List String :=
  ((fields (fun c => c = '-' || c = '_') stem.data).map
      (fun t => (pyStrip t).map Char.toLower)).filterMap
    (fun t => if t.isEmpty then none else some ⟨t⟩)

/-- Variable-font marker tokens dropped by `strip_style_tokens`. -/
def VF_TOKENS : List String := ["vf", "variable", "var"]

/-- A single token that `strip_style_tokens` drops on its own: a one-word
weight, an italic token, a VF marker, or a version-like token. -/
def isDropTok (t : String) : Bool :=
  (WEIGHT_MAP.find? (fun kv => kv.1 = t)).isSome
    || ITALIC_TOKENS.contains t || VF_TOKENS.contains t || isVersionTok t

/-- Whether a two-token window forms a two-word weight phrase in
`WEIGHT_MAP` (the `two and two in WEIGHT_MAP` check). -/
def isPairWeight (t u : String) : Bool :=
  (WEIGHT_MAP.find? (fun kv => kv.1 = t ++ " " ++ u)).isSome

/-- `strip_style_tokens`: drop two-word weight phrases, one-word weights,
italic tokens, VF markers, and version-like tokens; keep the rest in order. -/
def strip_style_tokens : List String → List String
  | [] => []
  | [t] => if isDropTok t then [] else [t]
  | t :: u :: rest =>
    if isPairWeight t u then strip_style_tokens rest
    else if isDropTok t then strip_style_tokens (u :: rest)
    else t :: strip_style_tokens (u :: rest)

/-- The inner `_infer_from` of `weight_and_style_from_names`: on a missing
or empty string return no weight and non-italic; otherwise normalize
whitespace and case, detect an italic substring, and return the value of
the first `WEIGHT_MAP` entry (in dict insertion order) whose key occurs as
a substring. -/
def inferFrom : Option String → Option Nat × Bool
  | none => (none, false)
  | some s =>
    if s = "" then (none, false)
    else
      let sn := pyNormWS s
      let isIt := ITALIC_TOKENS.any (fun tok => containsStr tok sn)
      match WEIGHT_MAP.find? (fun kv => containsStr kv.1 sn) with
      | some kv => (some kv.2, isIt)
      | none => (none, isIt)

/-- Adjacent-token pairs `" ".join(toks[i:i+2])` of the stem tokens. -/
def pairsOf (toks : List String) : List String :=
  (List.range (toks.length - 1)).map
    (fun i => String.intercalate " " ((toks.drop i).take 2))

/-- `weight_and_style_from_names`: infer `(weight?, italic)` from the
subfamily, then the family, then fall back to the stem tokens. -/
def weight_and_style_from_names (family subfamily : Option String)
    (stem : String) : Option Nat × Bool :=
  let r := inferFrom subfamily
  if r.1.isSome then r
  else
    let r2 := inferFrom family
    if r2.1.isSome then (r2.1, r.2 || r2.2)
    else
      let toks := tokenize_stem stem
      let pairs := pairsOf toks
      let itTok := ITALIC_TOKENS.any (fun t => toks.contains t)
      match WEIGHT_MAP.find? (fun kv => toks.contains kv.1 || pairs.contains kv.1) with
      | some kv => (some kv.2, itTok)
      | none => (none, itTok)

/-- A character retained by `sanitize_filename`
(regex class `[A-Za-z0-9._-]`). -/
def isAllowedChar (c : Char) : Bool :=
  c.isAlpha || c.isDigit || c = '.' || c = '_' || c = '-'

/-- Collapse runs of the character `x` to a single occurrence
(`re.sub(x+, x, ...)`). -/
def collapseRuns (x : Char) : List Char → List Char
  | [] => []
  | [a] => [a]
  | a :: b :: rest =>
    if a = x && b = x then collapseRuns x (b :: rest)
    else a :: collapseRuns x (b :: rest)

/-- A separator character trimmed from the ends (`.strip("-._")`). -/
def isStripChar (c : Char) : Bool := c = '-' || c = '.' || c = '_'

/-- Python `.strip("-._")`: drop strip-characters from both ends. -/
def stripEnds (cs : List Char) : List Char :=
  ((cs.dropWhile isStripChar).reverse.dropWhile isStripChar).reverse

/-- `sanitize_filename`: spaces to underscores, keep only
`[A-Za-z0-9._-]`, collapse repeated underscores then repeated dashes,
trim leading/trailing `-`, `.`, `_`. -/
def sanitize_filename (s : String) : String :=
  let cs := s.data.map (fun c => if c = ' ' then '_' else c)
  let cs := cs.filter isAllowedChar
  let cs := collapseRuns '_' cs
  let cs := collapseRuns '-' cs
  ⟨stripEnds cs⟩

/-- The two binary flavors distinguished by `sniff_sfnt_type`. -/
inductive Flavor | ttf | otf
deriving DecidableEq, Repr

/-- The two collection container kinds. -/
inductive CollType | ttc | otc
deriving DecidableEq, Repr

/-- The distinct failure modes of `infer_collection_type` (the source
raises `ValueError` with a distinct message for each). -/
inductive CollError | noInputs | badForcedType | typeConflict | mixedInput
deriving DecidableEq, Repr

/-- `infer_collection_type`, with the per-file `sniff_sfnt_type` results
supplied as the flavor list (the sniffing itself is binary-header I/O).
Empty input fails; a forced type must be `ttc`/`otc` (case-insensitive)
and its required flavor must equal exactly the set of input flavors;
without a forced type, a single shared flavor maps TTF→ttc / OTF→otc and
mixed flavors fail. -/
def infer_collection_type (flavors : List Flavor) (forced : Option String) :
    Except CollError CollType :=
  if flavors.isEmpty then .error .noInputs
  else
    let hasT := flavors.contains Flavor.ttf
    let hasO := flavors.contains Flavor.otf
    match forced with
    | some f =>
      let fl := pyLower f
      if fl ≠ "ttc" && fl ≠ "otc" then .error .badForcedType
      else if fl = "ttc" then
        if hasT && !hasO then .ok .ttc else .error .typeConflict
      else
        if hasO && !hasT then .ok .otc else .error .typeConflict
    | none =>
      if hasT && !hasO then .ok .ttc
      else if hasO && !hasT then .ok .otc
      else .error .mixedInput

/-- One input font for `sort_fonts`: its filename data together with the
answers of the metadata provider (`read_family_and_subfamily` reads the
embedded name table; the spec models it as an injected interface). -/
structure Font where
  name : String
  family : Option String
  subfamily : Option String
  stem : String
deriving DecidableEq, Repr

/-- The sort key of `sort_fonts`: weight (sentinel 1000 when unknown),
italic flag as 0/1, lowercased filename. -/
def sortKey (f : Font) : Nat × Nat × String :=
  let r := weight_and_style_from_names f.family f.subfamily f.stem
  (r.1.getD 1000, (if r.2 then 1 else 0), pyLower f.name)

/-- Lexicographic `≤` on sort keys, Python's tuple comparison. -/
def keyLE (a b : Nat × Nat × String) : Bool :=
  a.1 < b.1 || (a.1 = b.1 &&
    (a.2.1 < b.2.1 || (a.2.1 = b.2.1 && a.2.2 ≤ b.2.2)))

/-- Stable insertion of a font into a key-sorted list: the new font goes
before the first font whose key is not below it, so earlier fonts win
ties — the characteristic of Python's stable `list.sort`. -/
def insertByKey (f : Font) : List Font → List Font
  | [] => [f]
  | g :: gs =>
    if keyLE (sortKey f) (sortKey g) then f :: g :: gs
    else g :: insertByKey f gs

/-- `sort_fonts`: stable ascending sort by the key
(weight, italic, lowercased name) — `keyed.sort(...)` in the source;
stable sorts agree on every input, so insertion sort models it exactly. -/
def sort_fonts : List Font → List Font
  | [] => []
  | f :: fs => insertByKey f (sort_fonts fs)

end Createcollection

/-! ## `nameadjust.py` -/

namespace Nameadjust

/-- `_is_camel_like`: the token contains a lowercase letter immediately
followed by an uppercase letter (regex `[a-z][A-Z]`). -/
def isCamelLike (t : String) : Bool :=
  let rec go : List Char → Bool
    | [] => false
    | [_] => false
    | a :: b :: rest => (a.isLower && b.isUpper) || go (b :: rest)
  go t.data

/-- `_is_version_token` of `nameadjust.py` — the same regex as
`createcollection`'s version-token pattern. -/
def isVersionToken (t : String) : Bool := Createcollection.isVersionTok t

/-- Python `str.title()` restricted to a single word (as used in
`humanize_stem` after `tok.lower()`): uppercase the first letter,
lowercase the rest. On an already-lowercased token this capitalizes the
first alphabetic run boundary exactly as `"word".title()` does. -/
def titleWord (t : String) : String :=
  let rec go (prevAlpha : Bool) : List Char → List Char
    | [] => []
    | c :: cs =>
      (if c.isAlpha && !prevAlpha then c.toUpper else c) :: go c.isAlpha cs
  ⟨go false t.data⟩

/-- `humanize_stem`: split on `-`/`_` runs, drop a trailing `vf` suffix
from long tokens, drop standalone `vf` tokens and version-like tokens,
keep CamelCase tokens verbatim, Title-Case the rest, join with spaces. -/
def humanize_stem (stem : String) : String :=
  let tokens := (fields (fun c => c = '-' || c = '_') stem.data).map
    (fun t => (⟨t⟩ : String))
  let out := tokens.filterMap (fun tok =>
    let tok :=
      if (pyLower tok).endsWith "vf" && tok.length > 2 then
        ⟨tok.data.take (tok.data.length - 2)⟩
      else tok
    if tok.data.isEmpty then none
    else if pyLower tok = "vf" then none
    else if isVersionToken tok then none
    else if isCamelLike tok then some tok
    else some (titleWord (pyLower tok)))
  String.intercalate " " out

/-- The `_BASE_STYLES` list of `nameadjust.py`. -/
def BASE_STYLES : List String :=
  ["Thin", "Extra Light", "Light", "Regular", "Medium",
   "Semi Bold", "Bold", "Extra Bold", "Black"]

/-- The `_STYLE_SET`: base styles, each base suffixed with `" Italic"`,
plus bare `"Italic"` (membership only; Python set order is irrelevant). -/
def STYLE_SET : List String :=
  BASE_STYLES ++ BASE_STYLES.map (fun b => b ++ " Italic") ++ ["Italic"]

/-- The space-split tokens of a humanized string
(`humanized.split(" ")` with empty pieces dropped). -/
def humTokens (humanized : String) : List String :=
  (fields (fun c => c = ' ') humanized.data).map (fun t => (⟨t⟩ : String))

/-- The phrase of the token window starting at `start` with `size`
tokens, joined by single spaces. -/
def windowPhrase (toks : List String) (start size : Nat) : String :=
  String.intercalate " " ((toks.drop start).take size)

/-- One window probe of `split_family_subfamily` at end index `i` with
`size` tokens: skipped when the window would start before index 0
(`start < 0` in the source), otherwise a hit iff the joined window is a
recognized style phrase. -/
def tryWin (toks : List String) (i size : Nat) : Option (Nat × Nat) :=
  if i + 1 < size then none
  else if STYLE_SET.contains (windowPhrase toks (i + 1 - size) size) then
    some (i + 1 - size, i)
  else none

/-- One step of the window search of `split_family_subfamily`: at end
index `i`, try window sizes 3, then 2, then 1, and return the inclusive
`(start, end)` bounds of the first hit. -/
def checkAt (toks : List String) (i : Nat) : Option (Nat × Nat) :=
  match tryWin toks i 3 with
  | some r => some r
  | none =>
    match tryWin toks i 2 with
    | some r => some r
    | none => tryWin toks i 1

/-- The right-to-left scan of `split_family_subfamily`: check end index
`i`, then `i-1`, ..., stopping at the first match. -/
def findFrom (toks : List String) : Nat → Option (Nat × Nat)
  | 0 => checkAt toks 0
  | i + 1 =>
    match checkAt toks (i + 1) with
    | some r => some r
    | none => findFrom toks i

/-- `split_family_subfamily`: split a humanized string on spaces, find
the rightmost (then longest) recognized style phrase; it becomes the
subfamily, the remaining tokens the family. No match: family is the
whole string and subfamily `"Regular"`; empty input: `("", "Regular")`.
When the excised remainder strips to empty the family falls back to the
whole humanized string (the `or humanized` in the source). -/
def split_family_subfamily (humanized : String) : String × String :=
  let toks := humTokens humanized
  if toks.isEmpty then ("", "Regular")
  else
    match findFrom toks (toks.length - 1) with
    | none => (humanized, "Regular")
    | some (s, e) =>
      let subfamily := String.intercalate " " ((toks.drop s).take (e + 1 - s))
      let familyTokens := toks.take s ++ toks.drop (e + 1)
      let family := (⟨pyStrip (String.intercalate " " familyTokens).data⟩ : String)
      (if family = "" then humanized else family, subfamily)

/-- The weight table of `_infer_weight_and_italic_from_subfamily`;
the source defines a dict literally identical (entries and order) to
`createcollection.WEIGHT_MAP`. -/
def na_weight_map : List (String × Nat) := Createcollection.WEIGHT_MAP

/-- Stable insertion of a string into a list sorted by descending length:
`x` goes before the first element not longer than it. -/
def insertLenDesc (x : String) : List String → List String
  | [] => [x]
  | y :: ys => if x.length ≥ y.length then x :: y :: ys else y :: insertLenDesc x ys

/-- Stable sort by descending length — Python
`sorted(keys, key=len, reverse=True)` (stable: equal lengths keep the
dict insertion order). -/
def sortLenDesc : List String → List String
  | [] => []
  | x :: xs => insertLenDesc x (sortLenDesc xs)

/-- The key scan order of `_infer_weight_and_italic_from_subfamily`. -/
def na_sorted_keys : List String := sortLenDesc (na_weight_map.map Prod.fst)

/-- `_infer_weight_and_italic_from_subfamily`: italic iff `"italic"`
occurs in the lowercased phrase; weight is the table value of the first
key, scanning by descending key length, occurring as a substring of the
whitespace-normalized lowercased phrase; default 400. -/
def infer_weight_and_italic_from_subfamily (subfamily : String) : Nat × Bool :=
  let isIt := containsStr "italic" (pyLower subfamily)
  let s := pyNormWS subfamily
  match na_sorted_keys.find? (fun k => containsStr k s) with
  | some k => (((na_weight_map.find? (fun kv => kv.1 = k)).map Prod.snd).getD 0, isIt)
  | none => (400, isIt)

end Nameadjust

/-! ## `common/fontweights.py` -/

namespace Fontweights

/-- Separator characters of `_normalize_phrase` (`[\s\-]+`). -/
def isSepFW (c : Char) : Bool := c.isWhitespace || c = '-'

/-- `_normalize_phrase`: lowercase, split on whitespace/hyphen runs,
rejoin with single spaces. -/
def normalize_phrase (s : String) : String :=
  ⟨joinSpace (fields isSepFW (s.data.map Char.toLower))⟩

/-- Python dict assignment `m[k] = v` on an association list: replace the
binding when the key is present (keeping its position), else append. -/
def dinsert (m : List (String × α)) (k : String) (v : α) : List (String × α) :=
  if (m.find? (fun kv => kv.1 = k)).isSome then
    m.map (fun kv => if kv.1 = k then (k, v) else kv)
  else m ++ [(k, v)]

/-- Python dict lookup `m.get(k)` on an association list. -/
def dlookup (m : List (String × α)) (k : String) : Option α :=
  (m.find? (fun kv => kv.1 = k)).map Prod.snd

/-- The `FontWeights` dataclass: `canonical_name → value` and
`normalized_phrase → canonical_name`, both as insertion-ordered
association lists. -/
structure FontWeights where
  canonical_to_value : List (String × Int)
  normalized_to_canonical : List (String × String)
deriving DecidableEq, Repr

/-- `load_config` after TOML parsing: `weights` is the `[weights]` table
in document order (string keys, integer values — entries of other types
make the real loader raise before this point) and `aliases` the optional
`[aliases]` table (non-string entries are skipped with a warning before
this point and so never reach the mapping). Fails when the weights table
is empty; canonical names are registered first, then aliases whose
target is a declared canonical name, later insertions overwriting
earlier ones. -/
def load_config (weights : List (String × Int))
    (aliases : List (String × String)) : Except String FontWeights :=
  if weights.isEmpty then
    .error "fontweights.toml must define a non-empty weights table"
  else
    let n2c := weights.foldl (fun m kv => dinsert m (normalize_phrase kv.1) kv.1) []
    let n2c := aliases.foldl (fun m ac =>
      if (weights.find? (fun kv => kv.1 = ac.2)).isSome then
        dinsert m (normalize_phrase ac.1) ac.2
      else m) n2c
    .ok ⟨weights, n2c⟩

/-- `canonical_name_for`: normalize the phrase and look it up. -/
def canonical_name_for (cfg : FontWeights) (phrase : String) : Option String :=
  dlookup cfg.normalized_to_canonical (normalize_phrase phrase)

/-- `lookup_value`: numeric weight for a phrase via its canonical name. -/
def lookup_value (cfg : FontWeights) (phrase : String) : Option Int :=
  match canonical_name_for cfg phrase with
  | none => none
  | some canon => dlookup cfg.canonical_to_value canon

/-- Lexicographic `≤` on `(value, name)` pairs, Python's tuple order. -/
def pairLE (a b : Int × String) : Bool :=
  a.1 < b.1 || (a.1 = b.1 && a.2 ≤ b.2)

/-- `standard_weights`: `[(value, canonical_name)]` sorted ascending by
value, then name (Python's stable sort; `List.mergeSort` is stable). -/
def standard_weights (cfg : FontWeights) : List (Int × String) :=
  ((cfg.canonical_to_value.map (fun kv => (kv.2, kv.1)))).mergeSort pairLE

end Fontweights

/-! ## `weightadjust.py` -/

namespace Weightadjust

open Fontweights

/-- The clamping step of `process_font_all_weights` for one standard
weight: `target = base + offset`, clamped into the declared axis range
when one is known. Numeric values are modelled as rationals; the
comparisons and assignments involved are exact in either arithmetic. -/
def clampedTarget (rng : Option (ℚ × ℚ)) (offset : ℚ) (base : Int) : ℚ :=
  let t := (base : ℚ) + offset
  match rng with
  | some (mn, mx) => if t < mn then mn else if t > mx then mx else t
  | none => t

/-- The per-font target list of `process_font_all_weights`: one clamped
target per entry of the standard-weight list, in its order. -/
def weightTargets (rng : Option (ℚ × ℚ)) (offset : ℚ)
    (cfg : FontWeights) : List (ℚ × String) :=
  (standard_weights cfg).map (fun bn => (clampedTarget rng offset bn.1, bn.2))

/-- The axis-range guard of `adjust_font_weight` (lines 195–201): when a
range is known and the requested weight falls outside it, the function
raises `RuntimeError`; otherwise this guard passes. -/
def range_check (rng : Option (ℚ × ℚ)) (w : ℚ) : Except String Unit :=
  match rng with
  | none => .ok ()
  | some (mn, mx) =>
    if mn ≤ w ∧ w ≤ mx then .ok ()
    else .error "weight outside supported range"

end Weightadjust

/-! ## Helper lemmas -/

namespace Weightadjust

/-- The clamped target always lands inside a well-formed declared range. -/
theorem clampedTarget_bounds (mn mx offset : ℚ) (base : Int) (h : mn ≤ mx) :
    mn ≤ clampedTarget (some (mn, mx)) offset base
      ∧ clampedTarget (some (mn, mx)) offset base ≤ mx := by
  unfold clampedTarget
  dsimp only
  split
  · exact ⟨le_refl mn, h⟩
  · split
    · exact ⟨h, le_refl mx⟩
    · constructor
      · exact le_of_not_lt (by assumption)
      · exact le_of_not_lt (by assumption)

end Weightadjust

namespace Createcollection

/-- No adjacent pair of the character `x` occurs in the list. -/
def NoRun (x : Char) (cs : List Char) : Prop :=
  cs.Chain' (fun a b => ¬(a = x ∧ b = x))

theorem mem_collapseRuns {x c : Char} :
    ∀ {cs : List Char}, c ∈ collapseRuns x cs → c ∈ cs
  | [], h => by simp [collapseRuns] at h
  | [a], h => by simpa [collapseRuns] using h
  | a :: b :: rest, h => by
    rw [collapseRuns] at h
    split at h
    · exact List.mem_cons_of_mem a (mem_collapseRuns h)
    · rcases List.mem_cons.1 h with rfl | h'
      · exact List.mem_cons_self _ _
      · exact List.mem_cons_of_mem a (mem_collapseRuns h')

theorem head?_collapseRuns (x : Char) :
    ∀ cs : List Char, (collapseRuns x cs).head? = cs.head?
  | [] => rfl
  | [a] => rfl
  | a :: b :: rest => by
    rw [collapseRuns]
    split
    · rename_i hab
      simp only [Bool.and_eq_true, decide_eq_true_eq] at hab
      rw [head?_collapseRuns x (b :: rest)]
      simp [hab.1, hab.2]
    · rfl

theorem noRun_collapseRuns (x : Char) :
    ∀ cs : List Char, NoRun x (collapseRuns x cs)
  | [] => by simp [collapseRuns, NoRun]
  | [a] => by simp [collapseRuns, NoRun]
  | a :: b :: rest => by
    rw [collapseRuns]
    split
    · exact noRun_collapseRuns x (b :: rest)
    · rename_i hab
      simp only [Bool.and_eq_true, decide_eq_true_eq, not_and] at hab
      have ih := noRun_collapseRuns x (b :: rest)
      rw [NoRun, List.chain'_cons']
      refine ⟨?_, ih⟩
      intro y hy
      rw [head?_collapseRuns] at hy
      simp only [List.head?_cons, Option.mem_def, Option.some.injEq] at hy
      subst hy
      intro hc
      exact hab hc.1 hc.2

theorem noRun_collapseRuns_other {y x : Char} :
    ∀ {cs : List Char}, NoRun y cs → NoRun y (collapseRuns x cs)
  | [], h => h
  | [a], h => h
  | a :: b :: rest, h => by
    rw [collapseRuns]
    split
    · exact noRun_collapseRuns_other (List.Chain'.tail h)
    · have htail : NoRun y (b :: rest) := List.Chain'.tail h
      have hab : ¬(a = y ∧ b = y) := by
        rw [NoRun, List.chain'_cons'] at h
        exact h.1 b rfl
      rw [NoRun, List.chain'_cons']
      refine ⟨?_, noRun_collapseRuns_other htail⟩
      intro z hz
      rw [head?_collapseRuns] at hz
      simp only [List.head?_cons, Option.mem_def, Option.some.injEq] at hz
      subst hz
      exact hab

theorem collapseRuns_eq_self {x : Char} :
    ∀ {cs : List Char}, NoRun x cs → collapseRuns x cs = cs
  | [], _ => rfl
  | [a], _ => rfl
  | a :: b :: rest, h => by
    have hab : ¬(a = x ∧ b = x) := by
      rw [NoRun, List.chain'_cons'] at h
      exact h.1 b rfl
    rw [collapseRuns]
    split
    · rename_i hcond
      simp only [Bool.and_eq_true, decide_eq_true_eq] at hcond
      exact absurd hcond hab
    · have ht : NoRun x (b :: rest) := List.Chain'.tail h
      rw [collapseRuns_eq_self ht]

theorem mem_stripEnds {c : Char} {cs : List Char} (h : c ∈ stripEnds cs) :
    c ∈ cs := by
  unfold stripEnds at h
  rw [List.mem_reverse] at h
  have h1 := (List.dropWhile_suffix isStripChar).sublist.mem h
  rw [List.mem_reverse] at h1
  exact (List.dropWhile_suffix isStripChar).sublist.mem h1

theorem noRun_stripEnds {x : Char} {cs : List Char} (h : NoRun x cs) :
    NoRun x (stripEnds cs) := by
  unfold stripEnds
  rw [NoRun, List.chain'_reverse]
  have h1 : NoRun x (cs.dropWhile isStripChar) :=
    List.Chain'.suffix h (List.dropWhile_suffix isStripChar)
  have h2 : NoRun x ((cs.dropWhile isStripChar).reverse) := by
    rw [NoRun, List.chain'_reverse]
    exact List.Chain'.imp (fun a b hab => by tauto) h1
  have h3 : NoRun x (((cs.dropWhile isStripChar).reverse).dropWhile isStripChar) :=
    List.Chain'.suffix h2 (List.dropWhile_suffix isStripChar)
  exact List.Chain'.imp (fun a b hab => by tauto) h3

theorem dropWhile_head_not {p : Char → Bool} :
    ∀ {l : List Char} {c : Char}, (l.dropWhile p).head? = some c → p c = false
  | [], c, h => by simp [List.dropWhile] at h
  | a :: l, c, h => by
    rw [List.dropWhile] at h
    split at h
    · exact dropWhile_head_not h
    · simp only [List.head?_cons, Option.some.injEq] at h
      subst h
      rename_i ha
      simpa using ha

theorem dropWhile_eq_self_of_head {p : Char → Bool} {l : List Char}
    (h : ∀ c, l.head? = some c → p c = false) : l.dropWhile p = l := by
  cases l with
  | nil => rfl
  | cons a l => rw [List.dropWhile_cons, h a rfl]; simp

theorem stripEnds_idem (z : List Char) : stripEnds (stripEnds z) = stripEnds z := by
  set u := z.dropWhile isStripChar with hu
  set v := u.reverse.dropWhile isStripChar with hv
  have hsz : stripEnds z = v.reverse := rfl
  rw [hsz]
  by_cases hvnil : v = []
  · rw [hvnil]
    rfl
  · -- the head of `v.reverse` is the head of `u` (since `v` is a
    -- nonempty suffix of `u.reverse`), hence not a strip character
    obtain ⟨pre, hpre⟩ := List.dropWhile_suffix (l := u.reverse) isStripChar
    rw [← hv] at hpre
    have hurev : u = v.reverse ++ pre.reverse := by
      have h2 := congrArg List.reverse hpre
      simp at h2
      exact h2.symm
    have hA : v.reverse.dropWhile isStripChar = v.reverse := by
      apply dropWhile_eq_self_of_head
      intro c hc
      have hcu : u.head? = some c := by
        rw [hurev, List.head?_append, hc]
        rfl
      rw [hu] at hcu
      exact dropWhile_head_not hcu
    have hB : v.dropWhile isStripChar = v := by
      apply dropWhile_eq_self_of_head
      intro c hc
      rw [hv] at hc
      exact dropWhile_head_not hc
    show ((v.reverse.dropWhile isStripChar).reverse.dropWhile isStripChar).reverse
        = v.reverse
    rw [hA, List.reverse_reverse, hB]

end Createcollection

namespace Createcollection

/-- The sort relation of `sort_fonts`, as a proposition. -/
def KeyRel (a b : Font) : Prop := keyLE (sortKey a) (sortKey b) = true

theorem keyLE_trans (a b c : Nat × Nat × String)
    (h1 : keyLE a b = true) (h2 : keyLE b c = true) : keyLE a c = true := by
  simp only [keyLE, Bool.or_eq_true, Bool.and_eq_true, decide_eq_true_eq] at h1 h2 ⊢
  rcases h1 with h1 | ⟨he1, h1⟩ <;> rcases h2 with h2 | ⟨he2, h2⟩
  · exact Or.inl (lt_trans h1 h2)
  · exact Or.inl (he2 ▸ h1)
  · exact Or.inl (he1 ▸ h2)
  · refine Or.inr ⟨he1.trans he2, ?_⟩
    rcases h1 with h1 | ⟨hf1, h1⟩ <;> rcases h2 with h2 | ⟨hf2, h2⟩
    · exact Or.inl (lt_trans h1 h2)
    · exact Or.inl (hf2 ▸ h1)
    · exact Or.inl (hf1 ▸ h2)
    · exact Or.inr ⟨hf1.trans hf2, le_trans h1 h2⟩

theorem keyLE_total (a b : Nat × Nat × String) :
    keyLE a b = true ∨ keyLE b a = true := by
  simp only [keyLE, Bool.or_eq_true, Bool.and_eq_true, decide_eq_true_eq]
  rcases lt_trichotomy a.1 b.1 with h | h | h
  · exact Or.inl (Or.inl h)
  · rcases lt_trichotomy a.2.1 b.2.1 with h2 | h2 | h2
    · exact Or.inl (Or.inr ⟨h, Or.inl h2⟩)
    · rcases le_total a.2.2 b.2.2 with h3 | h3
      · exact Or.inl (Or.inr ⟨h, Or.inr ⟨h2, h3⟩⟩)
      · exact Or.inr (Or.inr ⟨h.symm, Or.inr ⟨h2.symm, h3⟩⟩)
    · exact Or.inr (Or.inr ⟨h.symm, Or.inl h2⟩)
  · exact Or.inr (Or.inl h)

theorem perm_insertByKey (f : Font) :
    ∀ l : List Font, List.Perm (insertByKey f l) (f :: l)
  | [] => List.Perm.refl _
  | g :: gs => by
    rw [insertByKey]
    split
    · exact List.Perm.refl _
    · exact (List.Perm.cons g (perm_insertByKey f gs)).trans
        (List.Perm.swap f g gs)

theorem sort_fonts_perm :
    ∀ fonts : List Font, List.Perm (sort_fonts fonts) fonts
  | [] => List.Perm.refl _
  | f :: fs => by
    rw [sort_fonts]
    exact (perm_insertByKey f (sort_fonts fs)).trans
      (List.Perm.cons f (sort_fonts_perm fs))

theorem sorted_insertByKey (f : Font) :
    ∀ l : List Font, l.Pairwise KeyRel → (insertByKey f l).Pairwise KeyRel
  | [], _ => by simp [insertByKey, List.pairwise_singleton]
  | g :: gs, h => by
    rw [insertByKey]
    split
    · rename_i hle
      refine List.pairwise_cons.2 ⟨?_, h⟩
      intro b hb
      rcases List.mem_cons.1 hb with rfl | hb
      · exact hle
      · exact keyLE_trans _ _ _ hle ((List.pairwise_cons.1 h).1 b hb)
    · rename_i hgt
      have hgf : KeyRel g f := by
        rcases keyLE_total (sortKey f) (sortKey g) with h1 | h1
        · exact absurd h1 hgt
        · exact h1
      refine List.pairwise_cons.2
        ⟨?_, sorted_insertByKey f gs (List.pairwise_cons.1 h).2⟩
      intro b hb
      have hb2 : b ∈ f :: gs := (perm_insertByKey f gs).mem_iff.1 hb
      rcases List.mem_cons.1 hb2 with rfl | hb2
      · exact hgf
      · exact (List.pairwise_cons.1 h).1 b hb2

theorem sort_fonts_sorted : ∀ fonts : List Font, (sort_fonts fonts).Pairwise KeyRel
  | [] => List.Pairwise.nil
  | f :: fs => by
    rw [sort_fonts]
    exact sorted_insertByKey f (sort_fonts fs) (sort_fonts_sorted fs)

end Createcollection

namespace Createcollection

theorem strip_sublist : ∀ toks : List String, (strip_style_tokens toks).Sublist toks
  | [] => by simp [strip_style_tokens]
  | [t] => by
    rw [strip_style_tokens]
    split
    · exact List.nil_sublist _
    · exact List.Sublist.refl _
  | t :: u :: rest => by
    rw [strip_style_tokens]
    split
    · exact ((strip_sublist rest).trans (List.sublist_cons_self u rest)).trans
        (List.sublist_cons_self t _)
    · split
      · exact (strip_sublist (u :: rest)).trans (List.sublist_cons_self t _)
      · exact List.Sublist.cons₂ t (strip_sublist (u :: rest))

theorem strip_retained_not_drop :
    ∀ (toks : List String) (t : String),
      t ∈ strip_style_tokens toks → isDropTok t = false
  | [], t, h => by simp [strip_style_tokens] at h
  | [u], t, h => by
    rw [strip_style_tokens] at h
    split at h
    · simp at h
    · rename_i hd
      simp only [List.mem_singleton] at h
      subst h
      simpa using hd
  | u :: v :: rest, t, h => by
    rw [strip_style_tokens] at h
    split at h
    · exact strip_retained_not_drop rest t h
    · split at h
      · exact strip_retained_not_drop (v :: rest) t h
      · rcases List.mem_cons.1 h with rfl | h2
        · rename_i hd
          simpa using hd
        · exact strip_retained_not_drop (v :: rest) t h2

theorem strip_keeps_plain :
    ∀ toks : List String, (∀ t ∈ toks, isDropTok t = false) →
      toks.Chain' (fun a b => isPairWeight a b = false) →
      strip_style_tokens toks = toks
  | [], _, _ => rfl
  | [t], h, _ => by
    rw [strip_style_tokens, h t (by simp)]
    simp
  | t :: u :: rest, h, hc => by
    have hp : isPairWeight t u = false := (List.chain'_cons.1 hc).1
    rw [strip_style_tokens, hp, h t (by simp)]
    simp only [Bool.false_eq_true, if_false]
    rw [strip_keeps_plain (u :: rest) (fun x hx => h x (List.mem_cons_of_mem t hx))
      (List.chain'_cons.1 hc).2]

end Createcollection

namespace Nameadjust

/-- A token window of `toks` that exactly matches a recognized style
phrase and is a candidate of the search (sizes 1–3, inside the list). -/
def MatchWin (toks : List String) (start size : Nat) : Prop :=
  1 ≤ size ∧ size ≤ 3 ∧ start + size ≤ toks.length
    ∧ STYLE_SET.contains (windowPhrase toks start size) = true

theorem tryWin_eq_some {toks : List String} {i size : Nat} {r : Nat × Nat}
    (h : tryWin toks i size = some r) :
    size ≤ i + 1
      ∧ STYLE_SET.contains (windowPhrase toks (i + 1 - size) size) = true
      ∧ r = (i + 1 - size, i) := by
  unfold tryWin at h
  split at h
  · exact absurd h (by simp)
  · split at h
    · rename_i h1 h2
      exact ⟨by omega, h2, (Option.some.inj h).symm⟩
    · exact absurd h (by simp)

theorem tryWin_eq_none {toks : List String} {i size : Nat}
    (h : tryWin toks i size = none) (hs : size ≤ i + 1) :
    STYLE_SET.contains (windowPhrase toks (i + 1 - size) size) = false := by
  unfold tryWin at h
  split at h
  · omega
  · split at h
    · exact absurd h (by simp)
    · rename_i h2
      simpa using h2

theorem checkAt_eq_some {toks : List String} {i : Nat} {r : Nat × Nat}
    (h : checkAt toks i = some r) :
    ∃ size, 1 ≤ size ∧ size ≤ 3 ∧ size ≤ i + 1
      ∧ r = (i + 1 - size, i)
      ∧ STYLE_SET.contains (windowPhrase toks (i + 1 - size) size) = true
      ∧ ∀ size', size < size' → size' ≤ 3 → size' ≤ i + 1 →
          STYLE_SET.contains (windowPhrase toks (i + 1 - size') size') = false := by
  unfold checkAt at h
  cases h3 : tryWin toks i 3 with
  | some r3 =>
    rw [h3] at h
    obtain ⟨ha, hb, hc⟩ := tryWin_eq_some h3
    have hr : r = r3 := (Option.some.inj h).symm
    subst hr
    exact ⟨3, by omega, by omega, ha, hc, hb, fun size' h1 h2 _ => by omega⟩
  | none =>
    rw [h3] at h
    cases h2 : tryWin toks i 2 with
    | some r2 =>
      rw [h2] at h
      obtain ⟨ha, hb, hc⟩ := tryWin_eq_some h2
      have hr : r = r2 := (Option.some.inj h).symm
      subst hr
      refine ⟨2, by omega, by omega, ha, hc, hb, ?_⟩
      intro size' hs1 hs3 hsi
      have : size' = 3 := by omega
      subst this
      exact tryWin_eq_none h3 hsi
    | none =>
      rw [h2] at h
      obtain ⟨ha, hb, hc⟩ := tryWin_eq_some h
      refine ⟨1, by omega, by omega, ha, hc, hb, ?_⟩
      intro size' hs1 hs3 hsi
      rcases (by omega : size' = 2 ∨ size' = 3) with rfl | rfl
      · exact tryWin_eq_none h2 hsi
      · exact tryWin_eq_none h3 hsi

theorem checkAt_eq_none {toks : List String} {i : Nat}
    (h : checkAt toks i = none) :
    ∀ size, 1 ≤ size → size ≤ 3 → size ≤ i + 1 →
      STYLE_SET.contains (windowPhrase toks (i + 1 - size) size) = false := by
  unfold checkAt at h
  cases h3 : tryWin toks i 3 with
  | some r3 => rw [h3] at h; exact absurd h (by simp)
  | none =>
    rw [h3] at h
    cases h2 : tryWin toks i 2 with
    | some r2 => rw [h2] at h; exact absurd h (by simp)
    | none =>
      rw [h2] at h
      intro size hs1 hs3 hsi
      rcases (by omega : size = 1 ∨ size = 2 ∨ size = 3) with rfl | rfl | rfl
      · exact tryWin_eq_none h hsi
      · exact tryWin_eq_none h2 hsi
      · exact tryWin_eq_none h3 hsi

theorem findFrom_eq_none {toks : List String} :
    ∀ i, findFrom toks i = none → ∀ j, j ≤ i → checkAt toks j = none
  | 0, h, j, hj => by
    have hz : j = 0 := Nat.le_zero.1 hj
    subst hz
    simpa [findFrom] using h
  | i + 1, h, j, hj => by
    rw [findFrom] at h
    cases hc : checkAt toks (i + 1) with
    | some r => rw [hc] at h; exact absurd h (by simp)
    | none =>
      rw [hc] at h
      rcases Nat.lt_or_ge j (i + 1) with h2 | h2
      · exact findFrom_eq_none i h j (by omega)
      · have hz : j = i + 1 := by omega
        subst hz
        exact hc

theorem findFrom_eq_some {toks : List String} :
    ∀ i r, findFrom toks i = some r →
      ∃ j, j ≤ i ∧ checkAt toks j = some r
        ∧ ∀ j', j < j' → j' ≤ i → checkAt toks j' = none
  | 0, r, h =>
    ⟨0, le_refl 0, by simpa [findFrom] using h, fun j' h1 h2 => by omega⟩
  | i + 1, r, h => by
    rw [findFrom] at h
    cases hc : checkAt toks (i + 1) with
    | some r2 =>
      rw [hc] at h
      have hr : r2 = r := Option.some.inj h
      subst hr
      exact ⟨i + 1, le_refl _, hc, fun j' h1 h2 => by omega⟩
    | none =>
      rw [hc] at h
      obtain ⟨j, hj1, hj2, hj3⟩ := findFrom_eq_some i r h
      refine ⟨j, by omega, hj2, ?_⟩
      intro j' h1 h2
      rcases Nat.lt_or_ge j' (i + 1) with h4 | h4
      · exact hj3 j' h1 (by omega)
      · have hz : j' = i + 1 := by omega
        subst hz
        exact hc

theorem checkAt_of_matchWin {toks : List String} {start size : Nat}
    (h : MatchWin toks start size) :
    checkAt toks (start + size - 1) ≠ none := by
  intro hn
  obtain ⟨h1, h3, hlen, hcont⟩ := h
  have hf := checkAt_eq_none hn size h1 h3 (by omega)
  have he : start + size - 1 + 1 - size = start := by omega
  rw [he] at hf
  rw [hcont] at hf
  exact Bool.noConfusion hf

/-- `a` is at least as long as `b` — the descending-length sort order. -/
def LenGE (a b : String) : Prop := b.length ≤ a.length

theorem perm_insertLenDesc (x : String) :
    ∀ l : List String, List.Perm (insertLenDesc x l) (x :: l)
  | [] => List.Perm.refl _
  | y :: ys => by
    rw [insertLenDesc]
    split
    · exact List.Perm.refl _
    · exact (List.Perm.cons y (perm_insertLenDesc x ys)).trans
        (List.Perm.swap x y ys)

theorem sortLenDesc_perm :
    ∀ l : List String, List.Perm (sortLenDesc l) l
  | [] => List.Perm.refl _
  | x :: xs => by
    rw [sortLenDesc]
    exact (perm_insertLenDesc x (sortLenDesc xs)).trans
      (List.Perm.cons x (sortLenDesc_perm xs))

theorem pairwise_insertLenDesc (x : String) :
    ∀ l : List String, l.Pairwise LenGE → (insertLenDesc x l).Pairwise LenGE
  | [], _ => by simp [insertLenDesc, List.pairwise_singleton]
  | y :: ys, h => by
    rw [insertLenDesc]
    split
    · rename_i hxy
      refine List.pairwise_cons.2 ⟨?_, h⟩
      intro b hb
      rcases List.mem_cons.1 hb with rfl | hb
      · exact hxy
      · exact le_trans ((List.pairwise_cons.1 h).1 b hb) hxy
    · rename_i hxy
      refine List.pairwise_cons.2
        ⟨?_, pairwise_insertLenDesc x ys (List.pairwise_cons.1 h).2⟩
      intro b hb
      have hb2 : b ∈ x :: ys := (perm_insertLenDesc x ys).mem_iff.1 hb
      rcases List.mem_cons.1 hb2 with rfl | hb2
      · exact le_of_lt (lt_of_not_ge hxy)
      · exact (List.pairwise_cons.1 h).1 b hb2

theorem sortLenDesc_pairwise : ∀ l : List String, (sortLenDesc l).Pairwise LenGE
  | [] => List.Pairwise.nil
  | x :: xs => by
    rw [sortLenDesc]
    exact pairwise_insertLenDesc x (sortLenDesc xs) (sortLenDesc_pairwise xs)

/-- On a list sorted by descending length, the first hit of `find?` is a
longest hit: every strictly longer element fails the predicate. -/
theorem find?_no_longer (p : String → Bool) :
    ∀ l : List String, l.Pairwise LenGE → ∀ k, l.find? p = some k →
      ∀ k' ∈ l, k.length < k'.length → p k' = false
  | [], _, k, h => by simp at h
  | a :: l, hp, k, h => by
    intro k' hk' hlen
    by_cases ha : p a = true
    · rw [List.find?_cons_of_pos _ ha] at h
      have hk : a = k := by injection h
      subst hk
      rcases List.mem_cons.1 hk' with rfl | hk'
      · exact absurd hlen (lt_irrefl _)
      · have hle := (List.pairwise_cons.1 hp).1 k' hk'
        exact absurd hlen (not_lt_of_le hle)
    · rw [List.find?_cons_of_neg _ ha] at h
      rcases List.mem_cons.1 hk' with rfl | hk'
      · simpa using ha
      · exact find?_no_longer p l (List.pairwise_cons.1 hp).2 k h k' hk' hlen

end Nameadjust

namespace Fontweights

theorem pairLE_trans (a b c : Int × String)
    (h1 : pairLE a b = true) (h2 : pairLE b c = true) : pairLE a c = true := by
  simp only [pairLE, Bool.or_eq_true, Bool.and_eq_true, decide_eq_true_eq] at h1 h2 ⊢
  rcases h1 with h1 | ⟨he1, h1⟩ <;> rcases h2 with h2 | ⟨he2, h2⟩
  · exact Or.inl (lt_trans h1 h2)
  · exact Or.inl (he2 ▸ h1)
  · exact Or.inl (he1 ▸ h2)
  · exact Or.inr ⟨he1.trans he2, le_trans h1 h2⟩

theorem pairLE_total (a b : Int × String) : pairLE a b || pairLE b a := by
  simp only [pairLE, Bool.or_eq_true, Bool.and_eq_true, decide_eq_true_eq]
  rcases lt_trichotomy a.1 b.1 with h | h | h
  · exact Or.inl (Or.inl h)
  · rcases le_total a.2 b.2 with h2 | h2
    · exact Or.inl (Or.inr ⟨h, h2⟩)
    · exact Or.inr (Or.inr ⟨h.symm, h2⟩)
  · exact Or.inr (Or.inl h)

/-- `standard_weights` is sorted ascending by value, then name. -/
theorem standard_weights_sorted (cfg : FontWeights) :
    (standard_weights cfg).Pairwise (fun a b => pairLE a b = true) := by
  unfold standard_weights
  exact List.sorted_mergeSort (fun a b c => pairLE_trans a b c)
    (fun a b => pairLE_total a b) _

theorem dlookup_map_overwrite (m : List (String × α)) (k k' : String) (v : α) :
    dlookup (m.map (fun kv => if kv.1 = k then (k, v) else kv)) k'
      = if k' = k then (m.find? (fun kv => kv.1 = k)).map (fun _ => v)
        else dlookup m k' := by
  rw [dlookup, List.find?_map]
  have hpq : ((fun kv : String × α => decide (kv.1 = k')) ∘
        (fun kv => if kv.1 = k then (k, v) else kv))
      = fun kv : String × α => decide (kv.1 = k') := by
    funext kv
    by_cases h : kv.1 = k <;> simp [h]
  rw [hpq]
  cases hf : m.find? (fun kv : String × α => decide (kv.1 = k')) with
  | none =>
    by_cases h : k' = k
    · subst h
      simp [hf, dlookup]
    · simp [h, dlookup, hf]
  | some e =>
    have he : e.1 = k' := by simpa using List.find?_some hf
    by_cases h : k' = k
    · subst h
      simp [hf, he, dlookup]
    · have hek : ¬e.1 = k := by rw [he]; exact h
      simp [h, dlookup, hf, hek]

theorem dlookup_append_single (m : List (String × α)) (k k' : String) (v : α) :
    dlookup (m ++ [(k, v)]) k'
      = (dlookup m k').or (if k' = k then some v else none) := by
  rw [dlookup, List.find?_append]
  by_cases h : k' = k
  · subst h
    cases hf : m.find? (fun kv => decide (kv.1 = k')) <;> simp [dlookup, hf]
  · cases hf : m.find? (fun kv => decide (kv.1 = k')) <;>
      simp [dlookup, hf, fun hh : k = k' => h hh.symm, h, Ne.symm h]

/-- Lookup after a Python-dict insertion: the inserted key maps to the new
value, every other key is unchanged. -/
theorem dlookup_dinsert (m : List (String × α)) (k k' : String) (v : α) :
    dlookup (dinsert m k v) k' = if k' = k then some v else dlookup m k' := by
  unfold dinsert
  split
  · rename_i h
    rw [dlookup_map_overwrite]
    by_cases hk : k' = k
    · obtain ⟨e, he⟩ := Option.isSome_iff_exists.1 h
      simp [hk, he]
    · simp [hk]
  · rename_i h
    have hnone : m.find? (fun kv => kv.1 = k) = none :=
      Option.not_isSome_iff_eq_none.1 h
    rw [dlookup_append_single]
    by_cases hk : k' = k
    · subst hk
      simp [dlookup, hnone]
    · simp [hk]

/-- Registering the canonical names: if `c` occurs in the remaining
weights and no distinct remaining canonical key shares its normalized
phrase — or it is already registered and no colliding key remains — then
after the fold the normalized phrase of `c` maps to `c`. -/
theorem canonical_fold_self (c : String) (ws : List (String × Int)) :
    ∀ (m : List (String × String)),
      ((∃ v, (c, v) ∈ ws) ∨ dlookup m (normalize_phrase c) = some c) →
      (∀ c' v', (c', v') ∈ ws → normalize_phrase c' = normalize_phrase c → c' = c) →
      dlookup (ws.foldl (fun m kv => dinsert m (normalize_phrase kv.1) kv.1) m)
          (normalize_phrase c) = some c := by
  induction ws with
  | nil =>
    intro m h _
    rcases h with ⟨v, hv⟩ | h
    · simp at hv
    · simpa using h
  | cons kv ws ih =>
    intro m h hW
    obtain ⟨k, v⟩ := kv
    rw [List.foldl_cons]
    by_cases hkc : normalize_phrase k = normalize_phrase c
    · have hk : k = c := hW k v (List.mem_cons_self _ _) hkc
      subst hk
      refine ih _ (Or.inr ?_) (fun c' v' hm hn => hW c' v' (List.mem_cons_of_mem _ hm) hn)
      rw [dlookup_dinsert, if_pos rfl]
    · rcases h with ⟨v', hv'⟩ | h
      · rcases List.mem_cons.1 hv' with heq | hmem
        · cases heq
          exact absurd rfl hkc
        · exact ih _ (Or.inl ⟨v', hmem⟩)
            (fun c' v' hm hn => hW c' v' (List.mem_cons_of_mem _ hm) hn)
      · refine ih _ (Or.inr ?_) (fun c' v' hm hn => hW c' v' (List.mem_cons_of_mem _ hm) hn)
        rw [dlookup_dinsert, if_neg (fun hh => hkc hh.symm), h]

/-- Applying the aliases: when no alias shares the normalized phrase of
`c`, the registration of `c` survives the fold. -/
theorem alias_fold_self (weights : List (String × Int)) (c : String)
    (al : List (String × String)) :
    ∀ (m : List (String × String)),
      dlookup m (normalize_phrase c) = some c →
      (∀ a t, (a, t) ∈ al → normalize_phrase a ≠ normalize_phrase c) →
      dlookup (al.foldl (fun m ac =>
          if (weights.find? (fun kv => kv.1 = ac.2)).isSome then
            dinsert m (normalize_phrase ac.1) ac.2
          else m) m) (normalize_phrase c) = some c := by
  induction al with
  | nil => intro m h _; simpa using h
  | cons ac al ih =>
    intro m h hA
    obtain ⟨a, t⟩ := ac
    rw [List.foldl_cons]
    refine ih _ ?_ (fun a' t' hm => hA a' t' (List.mem_cons_of_mem _ hm))
    split
    · rw [dlookup_dinsert,
        if_neg (fun hh => hA a t (List.mem_cons_self _ _) hh.symm), h]
    · exact h

/-- Collapse each maximal run of separator characters (whitespace or
hyphen) to a single space: two phrases differing only in letter case,
hyphen-versus-space choice, or lengths of separator runs have the same
image under `squeezeSep` after lowercasing. -/
def squeezeSep : List Char → List Char
  | [] => []
  | [c] => if isSepFW c then [' '] else [c]
  | c :: d :: cs =>
    if isSepFW c && isSepFW d then squeezeSep (d :: cs)
    else (if isSepFW c then ' ' else c) :: squeezeSep (d :: cs)

theorem isSepFW_space : isSepFW ' ' = true := rfl

/-- Splitting on separator runs only depends on the `squeezeSep` image. -/
theorem fieldsGo_squeezeSep :
    ∀ (cs cur : List Char),
      fieldsGo isSepFW cur (squeezeSep cs) = fieldsGo isSepFW cur cs
  | [], _ => rfl
  | [c], cur => by
    rw [squeezeSep]
    by_cases h : isSepFW c = true
    · by_cases hcur : cur.isEmpty <;> simp [h, hcur, fieldsGo, isSepFW_space]
    · simp [h, fieldsGo]
  | c :: d :: cs, cur => by
    have hsq := fieldsGo_squeezeSep (d :: cs)
    rw [squeezeSep]
    by_cases h1 : isSepFW c = true <;> by_cases h2 : isSepFW d = true
    · by_cases hcur : cur.isEmpty <;>
        simp [h1, h2, hcur, fieldsGo, hsq, isSepFW_space]
    · by_cases hcur : cur.isEmpty <;>
        simp [h1, h2, hcur, fieldsGo, hsq, isSepFW_space]
    · simp [h1, h2, fieldsGo, hsq]
    · simp [h1, h2, fieldsGo, hsq]

end Fontweights

/-! ## Claim theorems -/

open Createcollection Nameadjust Fontweights Weightadjust

/-- C6: `process_font_all_weights` computes one target per standard-weight
entry (9 entries give 9 targets); with a known well-formed axis range
every produced target is clamped into `[min, max]`; with no known range
the unclamped `base + offset` is used; and a base of 100 with zero offset
against the range `[200, 900]` is clamped to 200. -/
theorem process_font_all_weights_clamps
    (cfg : FontWeights) (offset mn mx : ℚ) (h : mn ≤ mx) :
    (weightTargets (some (mn, mx)) offset cfg).length
        = cfg.canonical_to_value.length
      ∧ (standard_weights cfg).Pairwise (fun a b => pairLE a b = true)
      ∧ (∀ t ∈ weightTargets (some (mn, mx)) offset cfg, mn ≤ t.1 ∧ t.1 ≤ mx)
      ∧ weightTargets none offset cfg
          = (standard_weights cfg).map (fun bn => ((bn.1 : ℚ) + offset, bn.2))
      ∧ clampedTarget (some (200, 900)) 0 100 = 200 := by
  refine ⟨?_, standard_weights_sorted cfg, ?_, ?_, ?_⟩
  · simp [weightTargets, standard_weights]
  · intro t ht
    simp only [weightTargets, List.mem_map] at ht
    obtain ⟨bn, _, rfl⟩ := ht
    exact clampedTarget_bounds mn mx offset bn.1 h
  · simp [weightTargets, clampedTarget]
  · norm_num [clampedTarget]

/-- C6 witness: the theorem applied to a concrete two-entry vocabulary
and the range `[200, 900]` with zero offset: two entries give two
targets, and the base 100 is clamped to 200. -/
theorem process_font_all_weights_clamps_witness :
    (weightTargets (some (200, 900)) 0 ⟨[("Thin", 100), ("Bold", 700)], []⟩).length
        = ([("Thin", (100 : Int)), ("Bold", 700)] : List (String × Int)).length
      ∧ clampedTarget (some (200, 900)) 0 100 = 200 := by
  have h := process_font_all_weights_clamps ⟨[("Thin", 100), ("Bold", 700)], []⟩
    0 200 900 (by norm_num)
  exact ⟨h.1, h.2.2.2.2⟩

/-- C10: every clamped target that `process_font_all_weights` passes to
`adjust_font_weight` satisfies the axis-range guard, so the out-of-range
`RuntimeError` branch is unreachable on those calls. -/
theorem range_check_unreachable
    (cfg : FontWeights) (offset mn mx : ℚ) (h : mn ≤ mx) :
    ∀ t ∈ weightTargets (some (mn, mx)) offset cfg,
      range_check (some (mn, mx)) t.1 = .ok () := by
  intro t ht
  simp only [weightTargets, List.mem_map] at ht
  obtain ⟨bn, _, rfl⟩ := ht
  have hb := clampedTarget_bounds mn mx offset bn.1 h
  simp [range_check, hb.1, hb.2]

/-- C10 witness: the guard passes for the concrete clamped target that a
`Thin = 100` entry produces against the range `[200, 900]`. -/
theorem range_check_unreachable_witness :
    range_check (some (200, 900)) (clampedTarget (some (200, 900)) 0 100)
      = .ok () := by
  have hsw : standard_weights ⟨[("Thin", 100), ("Bold", 700)], []⟩
      = [(100, "Thin"), (700, "Bold")] := by
    unfold standard_weights
    apply List.mergeSort_of_sorted
    refine List.Pairwise.cons ?_ (List.pairwise_singleton _ _)
    intro b hb
    simp only [List.map_cons, List.map_nil, List.mem_singleton] at hb
    subst hb
    decide
  have hmem : (clampedTarget (some (200, 900)) 0 100, "Thin")
      ∈ weightTargets (some (200, 900)) 0 ⟨[("Thin", 100), ("Bold", 700)], []⟩ := by
    unfold weightTargets
    rw [hsw]
    simp
  exact range_check_unreachable ⟨[("Thin", 100), ("Bold", 700)], []⟩ 0 200 900
    (by norm_num) _ hmem

/-- C3 counterexample: with weights `Bold = 700, Light = 300` and the
alias `"bold" → "Light"`, `load_config` succeeds but the canonical name
`"Bold"` then resolves to `"Light"`, not to itself — the later alias
table silently overwrites the canonical self-mapping (last write wins),
refuting the claim for vocabularies with a colliding alias present. -/
theorem canonical_self_counterexample :
    (load_config [("Bold", 700), ("Light", 300)] [("bold", "Light")]).map
        (fun cfg => canonical_name_for cfg "Bold") = .ok (some "Light")
      ∧ (some "Light" : Option String) ≠ some "Bold" := by
  constructor
  · rfl
  · decide

/-- C3 (amended): for every vocabulary successfully returned by
`load_config`, a canonical weight name `c` maps to itself under
`canonical_name_for` provided no other canonical key and no alias entry
(the later registrations, which overwrite) shares its normalized
phrase. -/
theorem canonical_name_for_self
    (weights : List (String × Int)) (aliases : List (String × String))
    (c : String) (v : Int) (cfg : FontWeights)
    (hmem : (c, v) ∈ weights)
    (hW : ∀ c' v', (c', v') ∈ weights →
      normalize_phrase c' = normalize_phrase c → c' = c)
    (hA : ∀ a t, (a, t) ∈ aliases → normalize_phrase a ≠ normalize_phrase c)
    (hload : load_config weights aliases = .ok cfg) :
    canonical_name_for cfg c = some c := by
  unfold load_config at hload
  split at hload
  · exact absurd hload (by simp)
  · simp only [Except.ok.injEq] at hload
    subst hload
    unfold canonical_name_for
    exact alias_fold_self weights c aliases _
      (canonical_fold_self c weights [] (Or.inl ⟨v, hmem⟩) hW) hA

/-- C3 witness: the amended theorem applied to the one-entry vocabulary
`Bold = 700` with a non-colliding alias `"ultra" → "Bold"`. -/
theorem canonical_name_for_self_witness :
    canonical_name_for ⟨[("Bold", 700)], [("bold", "Bold"), ("ultra", "Bold")]⟩
        "Bold" = some "Bold" :=
  canonical_name_for_self [("Bold", 700)] [("ultra", "Bold")] "Bold" 700 _
    (by simp)
    (by intro c' v' hm hn
        simp only [List.mem_singleton, Prod.mk.injEq] at hm
        exact hm.1)
    (by intro a t hm
        simp only [List.mem_singleton, Prod.mk.injEq] at hm
        rw [hm.1]
        decide)
    (by rfl)

/-- C1 counterexample: `weight_and_style_from_names` in
`createcollection` scans `WEIGHT_MAP` in dict insertion order, in which
`"bold"` (700) precedes `"extra bold"` (800); the subfamily phrase
`"Extra Bold"` therefore yields 700, not the 800 the claim requires. -/
theorem weight_phrase_scan_counterexample :
    weight_and_style_from_names none (some "Extra Bold") "" = (some 700, false)
      ∧ (some 700 : Option Nat) ≠ some 800 :=
  ⟨by decide, by decide⟩

/-- C1 (amended): the two named functions scan differently.
`_infer_weight_and_italic_from_subfamily` (nameadjust) scans entries by
descending phrase length — the matched key is one no strictly longer key
beats, so `"Extra Bold"` yields 800 — and returns the default weight 400
(not absent) when no phrase occurs. `weight_and_style_from_names`
(createcollection) scans in table insertion order, in which `"bold"`
precedes `"extra bold"`, so `"Extra Bold"` yields 700 there; its weight
is absent when no vocabulary phrase occurs in the normalized names or
among the stem tokens and token pairs. -/
theorem weight_phrase_scan_spec :
    (∀ s k : String,
        na_sorted_keys.find? (fun k => containsStr k (pyNormWS s)) = some k →
        containsStr k (pyNormWS s) = true
          ∧ (infer_weight_and_italic_from_subfamily s).1
              = ((na_weight_map.find? (fun kv => kv.1 = k)).map Prod.snd).getD 0
          ∧ ∀ k' ∈ na_weight_map.map Prod.fst, k.length < k'.length →
              containsStr k' (pyNormWS s) = false)
    ∧ (∀ s : String,
        na_sorted_keys.find? (fun k => containsStr k (pyNormWS s)) = none →
        infer_weight_and_italic_from_subfamily s
          = (400, containsStr "italic" (pyLower s)))
    ∧ infer_weight_and_italic_from_subfamily "Extra Bold" = (800, false)
    ∧ infer_weight_and_italic_from_subfamily "Ultra Light Italic" = (200, true)
    ∧ weight_and_style_from_names none (some "Extra Bold") "" = (some 700, false)
    ∧ (∀ (fam sub : Option String) (stem : String),
        (∀ kv ∈ WEIGHT_MAP, ∀ s', sub = some s' →
            containsStr kv.1 (pyNormWS s') = false) →
        (∀ kv ∈ WEIGHT_MAP, ∀ s', fam = some s' →
            containsStr kv.1 (pyNormWS s') = false) →
        (∀ kv ∈ WEIGHT_MAP,
            (tokenize_stem stem).contains kv.1 = false
              ∧ (pairsOf (tokenize_stem stem)).contains kv.1 = false) →
        (weight_and_style_from_names fam sub stem).1 = none) := by
  refine ⟨?_, ?_, by decide, by decide, by decide, ?_⟩
  · intro s k h
    have hpk := List.find?_some (l := na_sorted_keys) h
    refine ⟨by simpa using hpk, ?_, ?_⟩
    · unfold infer_weight_and_italic_from_subfamily
      simp only [h]
    · intro k' hk' hlen
      exact find?_no_longer _ na_sorted_keys
        (sortLenDesc_pairwise _) k h k'
        ((sortLenDesc_perm _).mem_iff.2 hk') hlen
  · intro s h
    unfold infer_weight_and_italic_from_subfamily
    simp only [h]
  · intro fam sub stem h1 h2 h3
    have hr : (Createcollection.inferFrom sub).1 = none := by
      cases sub with
      | none => rfl
      | some s' =>
        unfold Createcollection.inferFrom
        by_cases hse : s' = ""
        · simp [hse]
        · have hfind : WEIGHT_MAP.find?
              (fun kv => containsStr kv.1 (pyNormWS s')) = none :=
            List.find?_eq_none.2 (fun kv hkv => by
              simp [h1 kv hkv s' rfl])
          simp only [if_neg hse, hfind]
    have hr2 : (Createcollection.inferFrom fam).1 = none := by
      cases fam with
      | none => rfl
      | some s' =>
        unfold Createcollection.inferFrom
        by_cases hse : s' = ""
        · simp [hse]
        · have hfind : WEIGHT_MAP.find?
              (fun kv => containsStr kv.1 (pyNormWS s')) = none :=
            List.find?_eq_none.2 (fun kv hkv => by
              simp [h2 kv hkv s' rfl])
          simp only [if_neg hse, hfind]
    have hfall : WEIGHT_MAP.find? (fun kv =>
        (tokenize_stem stem).contains kv.1
          || (pairsOf (tokenize_stem stem)).contains kv.1) = none :=
      List.find?_eq_none.2 (fun kv hkv => by
        rw [(h3 kv hkv).1, (h3 kv hkv).2]
        simp)
    unfold weight_and_style_from_names
    simp only [hr, hr2, Option.isSome_none, Bool.false_eq_true, if_false, hfall]

/-- C1 witness: the amended theorem applied at the phrase `"Extra Bold"`
(longest-match branch), at a phrase with no style word (default-400
branch), and at name/stem inputs with no weight phrase (absent branch of
`createcollection`). -/
theorem weight_phrase_scan_spec_witness :
    containsStr "extra bold" (pyNormWS "Extra Bold") = true
      ∧ (infer_weight_and_italic_from_subfamily "Extra Bold").1
          = ((na_weight_map.find? (fun kv => kv.1 = "extra bold")).map
              Prod.snd).getD 0
      ∧ infer_weight_and_italic_from_subfamily "NoStyle"
          = (400, containsStr "italic" (pyLower "NoStyle"))
      ∧ (weight_and_style_from_names none (some "Unknown") "Foo-Bar").1 = none := by
  have h1 := weight_phrase_scan_spec.1 "Extra Bold" "extra bold" (by decide)
  refine ⟨h1.1, h1.2.1, weight_phrase_scan_spec.2.1 "NoStyle" (by decide), ?_⟩
  refine weight_phrase_scan_spec.2.2.2.2.2 none (some "Unknown") "Foo-Bar"
    ?_ ?_ (by decide)
  · intro kv hkv s' hs'
    cases hs'
    exact (by decide :
      ∀ kv ∈ Createcollection.WEIGHT_MAP,
        containsStr kv.1 (pyNormWS "Unknown") = false) kv hkv
  · intro kv hkv s' hs'
    exact Option.noConfusion hs'

/-- C4 counterexample: when the matched style phrase consumes every
token, the family falls back to the whole humanized string rather than
the empty join of the (empty) remaining tokens:
`split_family_subfamily "Bold" = ("Bold", "Bold")`, not `("", "Bold")`. -/
theorem split_family_subfamily_counterexample :
    split_family_subfamily "Bold" = ("Bold", "Bold")
      ∧ ("Bold" : String) ≠ "" :=
  ⟨by decide, by decide⟩

/-- C4 (amended): for every humanized string in which some token window
of size 3, 2, or 1 exactly matches a recognized style phrase,
`split_family_subfamily` returns as subfamily the phrase of a matching
window that is rightmost (no matching window ends further right) and,
at that end position, longest; the family is the remaining tokens in
original order with the matched window excised, joined by single spaces
and whitespace-stripped — except that when that remainder is empty the
family falls back to the entire humanized string. -/
theorem split_family_subfamily_match_spec (hum : String)
    (hmatch : ∃ start size, MatchWin (humTokens hum) start size) :
    ∃ start size, MatchWin (humTokens hum) start size
      ∧ (split_family_subfamily hum).2 = windowPhrase (humTokens hum) start size
      ∧ (∀ start' size', MatchWin (humTokens hum) start' size' →
          start' + size' ≤ start + size
            ∧ (start' + size' = start + size → size' ≤ size))
      ∧ (split_family_subfamily hum).1
          = (if (⟨pyStrip (String.intercalate " "
                  ((humTokens hum).take start
                    ++ (humTokens hum).drop (start + size))).data⟩ : String) = ""
             then hum
             else ⟨pyStrip (String.intercalate " "
                  ((humTokens hum).take start
                    ++ (humTokens hum).drop (start + size))).data⟩) := by
  obtain ⟨s0, z0, hm0⟩ := hmatch
  have hlen1 : 1 ≤ (humTokens hum).length := by
    obtain ⟨h1, _, hlen, _⟩ := hm0
    omega
  have hemp : (humTokens hum).isEmpty = false := by
    cases hh : humTokens hum with
    | nil => rw [hh] at hlen1; simp at hlen1
    | cons a l => rfl
  have he0 : s0 + z0 - 1 ≤ (humTokens hum).length - 1 := by
    obtain ⟨h1, _, hlen, _⟩ := hm0
    omega
  cases hfind : findFrom (humTokens hum) ((humTokens hum).length - 1) with
  | none =>
    exact absurd (findFrom_eq_none _ hfind (s0 + z0 - 1) he0)
      (checkAt_of_matchWin hm0)
  | some r =>
    obtain ⟨j, hj1, hj2, hj3⟩ := findFrom_eq_some _ r hfind
    obtain ⟨size, hsz1, hsz3, hszi, hr, hcont, hnb⟩ := checkAt_eq_some hj2
    subst hr
    refine ⟨j + 1 - size, size, ⟨hsz1, hsz3, by omega, hcont⟩, ?_, ?_, ?_⟩
    · unfold split_family_subfamily
      simp only [hemp, Bool.false_eq_true, if_false, hfind]
      have harith : j + 1 - (j + 1 - size) = size := by omega
      rw [harith]
      rfl
    · intro start' size' hm'
      obtain ⟨h1', h3', hlen', hcont'⟩ := hm'
      constructor
      · by_contra hgt
        push_neg at hgt
        have hgt2 : j < start' + size' - 1 := by omega
        have he' : start' + size' - 1 ≤ (humTokens hum).length - 1 := by omega
        exact absurd (hj3 _ hgt2 he')
          (checkAt_of_matchWin ⟨h1', h3', hlen', hcont'⟩)
      · intro heq
        by_contra hgt
        push_neg at hgt
        have hj1' : size' ≤ j + 1 := by omega
        have hst : start' = j + 1 - size' := by omega
        have hf := hnb size' hgt h3' hj1'
        rw [← hst, hcont'] at hf
        exact Bool.noConfusion hf
    · unfold split_family_subfamily
      simp only [hemp, Bool.false_eq_true, if_false, hfind]
      have harith2 : j + 1 - size + size = j + 1 := by omega
      rw [harith2]

/-- C4 witness: the amended theorem applied to `"Cool Extra Bold"`,
whose rightmost, longest matching window is `"Extra Bold"`. -/
theorem split_family_subfamily_match_spec_witness :
    ∃ start size, MatchWin (humTokens "Cool Extra Bold") start size
      ∧ (split_family_subfamily "Cool Extra Bold").2
          = windowPhrase (humTokens "Cool Extra Bold") start size
      ∧ (∀ start' size', MatchWin (humTokens "Cool Extra Bold") start' size' →
          start' + size' ≤ start + size
            ∧ (start' + size' = start + size → size' ≤ size))
      ∧ (split_family_subfamily "Cool Extra Bold").1
          = (if (⟨pyStrip (String.intercalate " "
                  ((humTokens "Cool Extra Bold").take start
                    ++ (humTokens "Cool Extra Bold").drop (start + size))).data⟩ : String) = ""
             then "Cool Extra Bold"
             else ⟨pyStrip (String.intercalate " "
                  ((humTokens "Cool Extra Bold").take start
                    ++ (humTokens "Cool Extra Bold").drop (start + size))).data⟩) :=
  split_family_subfamily_match_spec "Cool Extra Bold"
    ⟨1, 2, by decide, by decide, by decide, by decide⟩

/-- C2 counterexample: `strip_style_tokens` removes the weight word
`"bold"`, refuting the claim that only italic markers, variable-font
markers and version-like tokens are removed while weight/style words are
retained. -/
theorem strip_style_tokens_counterexample :
    strip_style_tokens ["cool", "bold"] = ["cool"]
      ∧ (["cool"] : List String) ≠ ["cool", "bold"] :=
  ⟨by decide, by decide⟩

/-- C2 (amended): `strip_style_tokens` removes one-word weight tokens and
adjacent two-token weight phrases in addition to italic markers,
variable-font markers, and version-like tokens; the retained tokens are a
subsequence of the input (relative order preserved), none of them is in a
removal category, and an input with no removable token and no adjacent
two-word weight phrase is returned unchanged. -/
theorem strip_style_tokens_spec :
    (∀ toks : List String, (strip_style_tokens toks).Sublist toks)
    ∧ (∀ (toks : List String) (t : String),
        t ∈ strip_style_tokens toks → isDropTok t = false)
    ∧ (∀ toks : List String, (∀ t ∈ toks, isDropTok t = false) →
        toks.Chain' (fun a b => isPairWeight a b = false) →
        strip_style_tokens toks = toks) :=
  ⟨strip_sublist, strip_retained_not_drop, strip_keeps_plain⟩

/-- C2 witness: the theorem applied at concrete inputs — the stripped
list of the repo's own test case is a subsequence of non-removable
tokens, and a plain token list passes through unchanged. -/
theorem strip_style_tokens_spec_witness :
    (strip_style_tokens ["cool", "ultra", "light", "italic"]).Sublist
        ["cool", "ultra", "light", "italic"]
      ∧ strip_style_tokens ["cool", "font"] = ["cool", "font"] :=
  ⟨strip_style_tokens_spec.1 ["cool", "ultra", "light", "italic"],
    strip_style_tokens_spec.2.2 ["cool", "font"] (by decide)
      (show List.Chain _ "cool" ["font"] from
        List.Chain.cons (by decide) List.Chain.nil)⟩

/-- C5: `sort_fonts` returns a permutation of its input ordered
ascending by the key (weight with sentinel 1000 when unknown, italic
flag as 0/1, lowercased name); in particular, for three fonts whose
computed keys carry weights 700/400/400 and italic flags
false/false/true, the Roman weight-400 font precedes the Italic
weight-400 font, which precedes the weight-700 font. -/
theorem sort_fonts_spec :
    (∀ fonts : List Font, List.Perm (sort_fonts fonts) fonts)
    ∧ (∀ fonts : List Font, (sort_fonts fonts).Pairwise KeyRel)
    ∧ sortKey ⟨"c.ttf", none, some "Bold", "c"⟩ = (700, 0, "c.ttf")
    ∧ sortKey ⟨"a.ttf", none, some "Regular", "a"⟩ = (400, 0, "a.ttf")
    ∧ sortKey ⟨"b.ttf", none, some "Regular Italic", "b"⟩ = (400, 1, "b.ttf")
    ∧ sort_fonts [⟨"c.ttf", none, some "Bold", "c"⟩,
          ⟨"a.ttf", none, some "Regular", "a"⟩,
          ⟨"b.ttf", none, some "Regular Italic", "b"⟩]
        = [⟨"a.ttf", none, some "Regular", "a"⟩,
          ⟨"b.ttf", none, some "Regular Italic", "b"⟩,
          ⟨"c.ttf", none, some "Bold", "c"⟩] :=
  ⟨sort_fonts_perm, sort_fonts_sorted, by decide, by decide, by decide, by decide⟩

/-- C7: two phrases that agree after lowercasing and collapsing
separator runs — which covers every pair differing only in letter case,
hyphen-versus-space choice, or runs of repeated internal whitespace —
resolve identically under `canonical_name_for` on every vocabulary. -/
theorem canonical_name_for_norm_invariant (cfg : FontWeights) (s t : String)
    (h : squeezeSep ((pyLower s).data) = squeezeSep ((pyLower t).data)) :
    canonical_name_for cfg s = canonical_name_for cfg t := by
  unfold canonical_name_for
  have hs : normalize_phrase s = normalize_phrase t := by
    unfold normalize_phrase
    have hf : fields isSepFW (s.data.map Char.toLower)
        = fields isSepFW (t.data.map Char.toLower) := by
      rw [fields, fields, ← fieldsGo_squeezeSep (s.data.map Char.toLower) [],
        ← fieldsGo_squeezeSep (t.data.map Char.toLower) []]
      exact congrArg (fieldsGo isSepFW []) h
    rw [hf]
  rw [hs]

/-- C7 witness: `"Extra-Light"`, `"extra light"` and `"EXTRA   LIGHT"`
resolve identically on a concrete vocabulary. -/
theorem canonical_name_for_norm_invariant_witness :
    canonical_name_for ⟨[("Extra-Light", 200)], [("extra light", "Extra-Light")]⟩
          "Extra-Light"
        = canonical_name_for ⟨[("Extra-Light", 200)], [("extra light", "Extra-Light")]⟩
          "extra light"
      ∧ canonical_name_for ⟨[("Extra-Light", 200)], [("extra light", "Extra-Light")]⟩
          "extra light"
        = canonical_name_for ⟨[("Extra-Light", 200)], [("extra light", "Extra-Light")]⟩
          "EXTRA   LIGHT" :=
  ⟨canonical_name_for_norm_invariant _ "Extra-Light" "extra light" (by decide),
    canonical_name_for_norm_invariant _ "extra light" "EXTRA   LIGHT" (by decide)⟩

/-- C9: `sanitize_filename` is idempotent — sanitizing an
already-sanitized basename is a no-op. -/
theorem sanitize_filename_idempotent (s : String) :
    sanitize_filename (sanitize_filename s) = sanitize_filename s := by
  unfold sanitize_filename
  simp only
  set A := (s.data.map (fun c => if c = ' ' then '_' else c)).filter isAllowedChar
    with hA
  set B := collapseRuns '_' A with hB
  set C := collapseRuns '-' B with hC
  set D := stripEnds C with hD
  -- every character of D was kept by the filter
  have hmem : ∀ c ∈ D, isAllowedChar c = true := by
    intro c hc
    have h1 : c ∈ C := mem_stripEnds (hD ▸ hc)
    have h2 : c ∈ B := mem_collapseRuns (hC ▸ h1)
    have h3 : c ∈ A := mem_collapseRuns (hB ▸ h2)
    exact (List.mem_filter.1 (hA ▸ h3)).2
  -- space replacement is a no-op: no spaces survive the filter
  have hspace : D.map (fun c => if c = ' ' then '_' else c) = D := by
    have : ∀ c ∈ D, (if c = ' ' then '_' else c) = id c := by
      intro c hc
      have := hmem c hc
      have hne : c ≠ ' ' := by
        intro hce
        rw [hce] at this
        simp [isAllowedChar] at this
      simp [hne]
    rw [List.map_congr_left this, List.map_id]
  rw [hspace]
  -- the filter is a no-op
  rw [List.filter_eq_self.2 hmem]
  -- no underscore runs survive
  have hnrU : NoRun '_' D := by
    rw [hD, hC]
    exact noRun_stripEnds (noRun_collapseRuns_other (hB ▸ noRun_collapseRuns '_' A))
  rw [collapseRuns_eq_self hnrU]
  -- no dash runs survive
  have hnrD : NoRun '-' D := by
    rw [hD, hC]
    exact noRun_stripEnds (noRun_collapseRuns '-' B)
  rw [collapseRuns_eq_self hnrD]
  rw [hD, stripEnds_idem]

/-- C8: `infer_collection_type` fails with the mixed-input error on every
non-empty input containing both flavors with no forced type; returns
`ttc` when all inputs are TTF (`otc` when all OTF); and a forced type
(any letter case) whose required flavor does not equal exactly the
inputs' flavor set fails with the type-conflict error. -/
theorem infer_collection_type_spec :
    (∀ fl : List Flavor, fl ≠ [] → Flavor.ttf ∈ fl → Flavor.otf ∈ fl →
        infer_collection_type fl none = .error .mixedInput)
    ∧ (∀ fl : List Flavor, fl ≠ [] → (∀ f ∈ fl, f = Flavor.ttf) →
        infer_collection_type fl none = .ok .ttc)
    ∧ (∀ fl : List Flavor, fl ≠ [] → (∀ f ∈ fl, f = Flavor.otf) →
        infer_collection_type fl none = .ok .otc)
    ∧ (∀ (fl : List Flavor) (f : String), fl ≠ [] → pyLower f = "ttc" →
        ¬(Flavor.ttf ∈ fl ∧ Flavor.otf ∉ fl) →
        infer_collection_type fl (some f) = .error .typeConflict)
    ∧ (∀ (fl : List Flavor) (f : String), fl ≠ [] → pyLower f = "otc" →
        ¬(Flavor.otf ∈ fl ∧ Flavor.ttf ∉ fl) →
        infer_collection_type fl (some f) = .error .typeConflict) := by
  refine ⟨?_, ?_, ?_, ?_, ?_⟩
  · intro fl hne ht ho
    simp [infer_collection_type, hne, List.contains, List.elem_iff, ht, ho]
  · intro fl hne hall
    have ht : Flavor.ttf ∈ fl := by
      cases fl with
      | nil => exact absurd rfl hne
      | cons a l => rw [← hall a (List.mem_cons_self a l)]; exact List.mem_cons_self a l
    have ho : Flavor.otf ∉ fl := fun hmem => by
      have := hall _ hmem; exact Flavor.noConfusion this
    simp [infer_collection_type, hne, List.contains, List.elem_iff, ht, ho]
  · intro fl hne hall
    have ho : Flavor.otf ∈ fl := by
      cases fl with
      | nil => exact absurd rfl hne
      | cons a l => rw [← hall a (List.mem_cons_self a l)]; exact List.mem_cons_self a l
    have ht : Flavor.ttf ∉ fl := fun hmem => by
      have := hall _ hmem; exact Flavor.noConfusion this
    simp [infer_collection_type, hne, List.contains, List.elem_iff, ht, ho]
  · intro fl f hne hf hmix
    by_cases ht : Flavor.ttf ∈ fl <;> by_cases ho : Flavor.otf ∈ fl <;>
      simp [infer_collection_type, hne, List.contains, List.elem_iff, hf, ht, ho] at hmix ⊢
  · intro fl f hne hf hmix
    by_cases ht : Flavor.ttf ∈ fl <;> by_cases ho : Flavor.otf ∈ fl <;>
      simp [infer_collection_type, hne, List.contains, List.elem_iff, hf, ht, ho] at hmix ⊢

/-- C8 witness: the theorem applied to concrete one- and two-element
flavor lists (mixed input, all-TTF, all-OTF, and two forced mismatches). -/
theorem infer_collection_type_spec_witness :
    infer_collection_type [Flavor.ttf, Flavor.otf] none = .error .mixedInput
    ∧ infer_collection_type [Flavor.ttf, Flavor.ttf] none = .ok .ttc
    ∧ infer_collection_type [Flavor.otf] none = .ok .otc
    ∧ infer_collection_type [Flavor.otf] (some "TTC") = .error .typeConflict
    ∧ infer_collection_type [Flavor.ttf] (some "otc") = .error .typeConflict :=
  ⟨infer_collection_type_spec.1 [Flavor.ttf, Flavor.otf] (by simp)
      (by simp) (by simp),
    infer_collection_type_spec.2.1 [Flavor.ttf, Flavor.ttf] (by simp)
      (by decide),
    infer_collection_type_spec.2.2.1 [Flavor.otf] (by simp)
      (by decide),
    infer_collection_type_spec.2.2.2.1 [Flavor.otf] "TTC" (by simp) (by decide)
      (by decide),
    infer_collection_type_spec.2.2.2.2 [Flavor.ttf] "otc" (by simp) (by decide)
      (by decide)⟩

end Nerdify
